import Mathlib

/-!
Verification of the pull-request diff-retrieval subsystem of a Bitbucket
API client (an MCP server).  The TypeScript source is shallowly embedded:
text is modelled as `List Char` (JavaScript strings, restricted to the
code's actual ASCII-level operations), `split('\n')`/`join('\n')` as
`splitNl`/`joinNl`, fallible HTTP calls as explicit result values, and the
stateful cache as explicit state passing.  Every definition follows the
corresponding function in `src/client/bitbucket.ts`, `src/utils/cache.ts`
or `src/utils/errors.ts`; definitions written from the specification text
(for comparison against the code) say so in their doc comments.
-/

/-- Text, modelling a JavaScript string as its list of characters. -/
abbrev Str := List Char

/-- Model of JavaScript `String.prototype.includes`:
`strContains h n` is true iff `n` occurs as a contiguous substring of `h`
(the empty needle always matches, as in JavaScript). -/
def strContains : Str → Str → Bool
  | [], n => n.isEmpty
  | c :: t, n => n.isPrefixOf (c :: t) || strContains t n

/-- Model of JavaScript `String.prototype.split('\n')`: the list of
newline-separated lines.  `splitNl [] = [[]]` mirrors `''.split('\n') = ['']`. -/
def splitNl : Str → List Str
  | [] => [[]]
  | c :: rest =>
    if c = '\n' then [] :: splitNl rest
    else
      match splitNl rest with
      | [] => [[c]]
      | l :: ls => (c :: l) :: ls

/-- Model of JavaScript `Array.prototype.join('\n')` on a list of lines. -/
def joinNl : List Str → Str
  | [] => []
  | [l] => l
  | l :: l' :: ls => l ++ '\n' :: joinNl (l' :: ls)

theorem splitNl_ne_nil (s : Str) : splitNl s ≠ [] := by
  induction s with
  | nil => simp [splitNl]
  | cons c rest ih =>
    simp only [splitNl]
    split
    · simp
    · cases h : splitNl rest with
      | nil => simp
      | cons l ls => simp

theorem mem_splitNl_no_nl (s : Str) : ∀ l ∈ splitNl s, '\n' ∉ l := by
  induction s with
  | nil => intro l hl; simp [splitNl] at hl; simp [hl]
  | cons c rest ih =>
    intro l hl
    simp only [splitNl] at hl
    by_cases hc : c = '\n'
    · simp [hc] at hl
      rcases hl with h | h
      · simp [h]
      · exact ih l h
    · simp [hc] at hl
      cases h : splitNl rest with
      | nil => exact absurd h (splitNl_ne_nil rest)
      | cons l₀ ls =>
        rw [h] at hl
        simp at hl
        rcases hl with ⟨rfl⟩ | hmem
        · intro hin
          simp at hin
          rcases hin with h' | h'
          · exact hc h'.symm
          · exact ih l₀ (by simp [h]) h'
        · exact ih l (by simp [h, hmem])

theorem joinNl_cons (l : Str) (ls : List Str) (h : ls ≠ []) :
    joinNl (l :: ls) = l ++ '\n' :: joinNl ls := by
  cases ls with
  | nil => exact absurd rfl h
  | cons l' ls' => rfl

theorem joinNl_splitNl (s : Str) : joinNl (splitNl s) = s := by
  induction s with
  | nil => rfl
  | cons c rest ih =>
    simp only [splitNl]
    by_cases hc : c = '\n'
    · rw [if_pos hc, joinNl_cons _ _ (splitNl_ne_nil rest)]
      simp [ih, hc]
    · simp only [if_neg hc]
      cases h : splitNl rest with
      | nil => exact absurd h (splitNl_ne_nil rest)
      | cons l ls =>
        rw [h] at ih
        cases ls with
        | nil => simpa [joinNl] using congrArg (c :: ·) ih
        | cons l' ls' =>
          rw [joinNl_cons _ _ (by simp)] at ih ⊢
          simpa using congrArg (c :: ·) ih

theorem splitNl_no_nl (l : Str) (h : '\n' ∉ l) : splitNl l = [l] := by
  induction l with
  | nil => rfl
  | cons c rest ih =>
    simp only [splitNl]
    have hc : ¬ c = '\n' := fun hc => h (by simp [hc])
    rw [if_neg hc, ih (fun hm => h (by simp [hm]))]

theorem splitNl_append_nl (a b : Str) (h : '\n' ∉ a) :
    splitNl (a ++ '\n' :: b) = a :: splitNl b := by
  induction a with
  | nil => simp [splitNl]
  | cons c a' ih =>
    have hc : ¬ c = '\n' := fun hc => h (by simp [hc])
    simp only [List.cons_append, splitNl, if_neg hc, List.append_eq]
    rw [ih (fun hm => h (by simp [hm]))]

theorem splitNl_joinNl (ls : List Str) (hne : ls ≠ [])
    (hnl : ∀ l ∈ ls, '\n' ∉ l) : splitNl (joinNl ls) = ls := by
  induction ls with
  | nil => exact absurd rfl hne
  | cons l ls' ih =>
    cases ls' with
    | nil => exact splitNl_no_nl l (hnl l (by simp))
    | cons l' ls'' =>
      rw [joinNl_cons _ _ (by simp)]
      rw [splitNl_append_nl _ _ (hnl l (by simp))]
      rw [ih (by simp) (fun x hx => hnl x (by simp [hx]))]

/-! ## TTL cache (`src/utils/cache.ts`, class `SimpleCache`)

The JavaScript `Map` is modelled as an insertion-ordered association list,
and `Date.now()` as an explicit `now : Nat` argument (milliseconds). -/

structure CacheEntry (α : Type) where
  data : α
  timestamp : Nat
  ttl : Nat
  deriving Repr, DecidableEq

/-- State of a `SimpleCache`: the underlying key/entry map. -/
def SimpleCacheState (α : Type) := List (String × CacheEntry α)

/-- Model of `Map.prototype.get`. -/
def cacheLookup {α : Type} : SimpleCacheState α → String → Option (CacheEntry α)
  | [], _ => none
  | (k', e) :: rest, k => if k' = k then some e else cacheLookup rest k

/-- Model of `Map.prototype.delete` (dropping the binding). -/
def cacheEraseKey {α : Type} : SimpleCacheState α → String → SimpleCacheState α
  | [], _ => []
  | (k', e) :: rest, k => if k' = k then rest else (k', e) :: cacheEraseKey rest k

/-- `SimpleCache.set(key, data, ttlMs)`: stores the value with the current
timestamp, overwriting any existing entry unconditionally. -/
def cacheSet {α : Type} : SimpleCacheState α → String → α → Nat → Nat → SimpleCacheState α
  | [], k, v, now, ttlMs => [(k, ⟨v, now, ttlMs⟩)]
  | (k', e) :: rest, k, v, now, ttlMs =>
    if k' = k then (k, ⟨v, now, ttlMs⟩) :: rest
    else (k', e) :: cacheSet rest k v now ttlMs

/-- `SimpleCache.get(key)`: returns the entry's value unless the entry is
missing or expired (`Date.now() - entry.timestamp > entry.ttl`); an expired
entry is deleted as a side effect.  Returns (result, new cache state). -/
def cacheGet {α : Type} (c : SimpleCacheState α) (key : String) (now : Nat) :
    Option α × SimpleCacheState α :=
  match cacheLookup c key with
  | none => (none, c)
  | some e =>
    if now - e.timestamp > e.ttl then (none, cacheEraseKey c key)
    else (some e.data, c)

/-- Unfolding of `cacheGet` when the key is bound. -/
theorem cacheGet_eq_of_lookup {α : Type} (c : SimpleCacheState α) (key : String)
    (now : Nat) (e : CacheEntry α) (hl : cacheLookup c key = some e) :
    cacheGet c key now =
      if now - e.timestamp > e.ttl then (none, cacheEraseKey c key)
      else (some e.data, c) := by
  unfold cacheGet
  rw [hl]

/-- Unfolding of `cacheGet` when the key is unbound. -/
theorem cacheGet_eq_of_lookup_none {α : Type} (c : SimpleCacheState α) (key : String)
    (now : Nat) (hl : cacheLookup c key = none) : cacheGet c key now = (none, c) := by
  unfold cacheGet
  rw [hl]

theorem cacheLookup_set {α : Type} (c : SimpleCacheState α) (key : String)
    (v : α) (now ttlMs : Nat) :
    cacheLookup (cacheSet c key v now ttlMs) key = some ⟨v, now, ttlMs⟩ := by
  induction c with
  | nil => simp [cacheSet, cacheLookup]
  | cons p rest ih =>
    obtain ⟨k', e⟩ := p
    by_cases hk : k' = key
    · simp [cacheSet, hk, cacheLookup]
    · simp [cacheSet, hk, cacheLookup, ih]

/-- C7: `SimpleCache.get` returns the stored value iff an entry exists and its
age does not exceed its TTL; an expired entry yields `none` and is deleted as a
side effect; consequently `get` never returns a value older than its TTL, and
`get` 150ms after `set(key, v, ttl := 100ms)` returns `none`. -/
theorem cache_get_spec {α : Type} (c : SimpleCacheState α) (key : String) (now : Nat) :
    (∀ v : α, (cacheGet c key now).1 = some v ↔
      ∃ e, cacheLookup c key = some e ∧ e.data = v ∧ now - e.timestamp ≤ e.ttl) ∧
    (∀ e, cacheLookup c key = some e → now - e.timestamp > e.ttl →
      cacheGet c key now = (none, cacheEraseKey c key)) ∧
    (∀ v : α, ∀ ttlMs, (cacheGet (cacheSet c key v now ttlMs) key (now + 150)).1 =
      if 150 ≤ ttlMs then some v else none) := by
  refine ⟨?_, ?_, ?_⟩
  · intro v
    cases hl : cacheLookup c key with
    | none =>
      rw [cacheGet_eq_of_lookup_none c key now hl]
      simp
    | some e =>
      rw [cacheGet_eq_of_lookup c key now e hl]
      by_cases hexp : now - e.timestamp > e.ttl
      · rw [if_pos hexp]
        constructor
        · intro h; exact absurd h (by simp)
        · rintro ⟨e', he', rfl, hage⟩
          cases he'
          omega
      · rw [if_neg hexp]
        constructor
        · intro h
          exact ⟨e, rfl, by simpa using h, Nat.le_of_not_lt hexp⟩
        · rintro ⟨e', he', rfl, hage⟩
          cases he'
          simp
  · intro e hl hexp
    rw [cacheGet_eq_of_lookup c key now e hl, if_pos hexp]
  · intro v ttlMs
    rw [cacheGet_eq_of_lookup _ _ _ _ (cacheLookup_set c key v now ttlMs)]
    by_cases h150 : 150 ≤ ttlMs
    · rw [if_neg (by simp; omega), if_pos h150]
    · rw [if_pos (by simp; omega), if_neg h150]

/-- Closed instantiation of `cache_get_spec`: a fresh entry is returned while
young, and an entry set with ttl 100 at time 0 is absent at time 150. -/
theorem cache_get_spec_witness :
    (cacheGet [("a", (⟨(5 : Nat), 10, 100⟩ : CacheEntry Nat))] "a" 60).1 = some 5 ∧
    (cacheGet (cacheSet ([] : SimpleCacheState Nat) "k" 7 0 100) "k" (0 + 150)).1 = none := by
  constructor
  · exact ((cache_get_spec [("a", ⟨5, 10, 100⟩)] "a" 60).1 5).mpr
      ⟨⟨5, 10, 100⟩, by decide, rfl, by decide⟩
  · have h := (cache_get_spec ([] : SimpleCacheState Nat) "k" 0).2.2 7 100
    simpa using h

/-! ## Transport layer retry/backoff (`src/client/bitbucket.ts`,
`setupInterceptors`, lines 55–106)

The axios response-error interceptor is modelled as a step function from the
shared pacing state (`rateLimitDelay`) and the per-request mutable config
(`_retry`, `_retryCount`) to an action; a driver replays it against a given
sequence of outcomes for the successive sends of one request.  `maxRetries`
is 3. -/

structure ReqConfig where
  retry : Bool
  retryCount : Nat
  deriving Repr, DecidableEq

structure ErrResponse where
  /-- `error.response?.status`; `none` models a missing response object. -/
  status : Option Nat
  /-- parsed `retry-after` header in seconds, when present. -/
  retryAfter : Option Nat
  deriving Repr, DecidableEq

/-- JavaScript test `error.response?.status && error.response.status >= 500`
(a missing or zero status is falsy). -/
def is5xx : Option Nat → Bool
  | some s => decide (s ≠ 0 ∧ 500 ≤ s)
  | none => false

inductive InterceptorAction where
  | retryReq (delayMs : Nat) (cfg : ReqConfig) (newRate : Nat)
  | rejectReq (newRate : Nat)
  deriving Repr, DecidableEq

/-- Model of the response interceptor's error handler: handle 429 with an
adaptive delay and a single retry, 5xx with exponential backoff up to
`maxRetries = 3`, and reject everything else. -/
def interceptorOnError (rate : Nat) (cfg : ReqConfig) (e : ErrResponse) : InterceptorAction :=
  if e.status = some 429 then
    let delay := match e.retryAfter with
      | some ra => ra * 1000
      | none => rate * 2
    let rate' := min delay 10000
    if cfg.retry = false then
      .retryReq delay { cfg with retry := true } rate'
    else
      .rejectReq rate'
  else if is5xx e.status then
    if cfg.retryCount < 3 then
      .retryReq (2 ^ cfg.retryCount * 1000) { cfg with retryCount := cfg.retryCount + 1 } rate
    else
      .rejectReq rate
  else
    .rejectReq rate

/-- Model of the response interceptor's success handler: relax the pacing
delay toward the floor of 100ms. -/
def interceptorOnSuccess (rate : Nat) : Nat := max 100 (rate - 50)

inductive RoundOutcome where
  | ok
  | err (e : ErrResponse)
  deriving Repr, DecidableEq

inductive TransportEvent where
  | rateRetry (delayMs : Nat)
  | serverRetry (attempt : Nat) (delayMs : Nat)
  | rejected
  | resolved
  deriving Repr, DecidableEq

/-- Replays the interceptor against the successive outcomes of one request's
sends, recording which branch triggered each retry and the wait used. -/
def runRequest : Nat → ReqConfig → List RoundOutcome → List TransportEvent
  | _, _, [] => []
  | _, _, .ok :: _ => [.resolved]
  | rate, cfg, .err e :: rest =>
    match interceptorOnError rate cfg e with
    | .retryReq d cfg' rate' =>
      (if e.status = some 429 then TransportEvent.rateRetry d
       else TransportEvent.serverRetry cfg.retryCount d) :: runRequest rate' cfg' rest
    | .rejectReq _ => [.rejected]

/-- The 5xx-branch retries recorded in a trace, as (attempt, delayMs) pairs. -/
def serverRetries (evs : List TransportEvent) : List (Nat × Nat) :=
  evs.filterMap fun e => match e with
    | .serverRetry a d => some (a, d)
    | _ => none

theorem runRequest_server_invariant (outs : List RoundOutcome) :
    ∀ rate cfg, cfg.retryCount ≤ 3 →
      (serverRetries (runRequest rate cfg outs)).map Prod.fst =
        List.range' cfg.retryCount (serverRetries (runRequest rate cfg outs)).length ∧
      cfg.retryCount + (serverRetries (runRequest rate cfg outs)).length ≤ 3 ∧
      ∀ p ∈ serverRetries (runRequest rate cfg outs), p.2 = 2 ^ p.1 * 1000 := by
  induction outs with
  | nil => intro rate cfg hcnt; simpa [runRequest, serverRetries] using hcnt
  | cons o rest ih =>
    intro rate cfg hcnt
    cases o with
    | ok => simpa [runRequest, serverRetries] using hcnt
    | err e =>
      simp only [runRequest]
      unfold interceptorOnError
      by_cases h429 : e.status = some 429
      · rw [if_pos h429]
        by_cases hr : cfg.retry = false
        · rw [if_pos hr]
          simp only
          rw [if_pos h429]
          have := ih (min (match e.retryAfter with
            | some ra => ra * 1000
            | none => rate * 2) 10000) { cfg with retry := true } hcnt
          simpa [serverRetries] using this
        · rw [if_neg hr]
          simpa [serverRetries] using hcnt
      · rw [if_neg h429]
        by_cases h5 : is5xx e.status = true
        · rw [if_pos h5]
          by_cases hc : cfg.retryCount < 3
          · rw [if_pos hc]
            simp only
            rw [if_neg h429]
            have := ih rate { cfg with retryCount := cfg.retryCount + 1 } (by simp; omega)
            obtain ⟨h1, h2, h3⟩ := this
            refine ⟨?_, ?_, ?_⟩
            · simp only [serverRetries, List.filterMap_cons] at *
              simp only [List.map_cons, List.length_cons, h1]
              rw [List.range'_succ]
            · simp only [serverRetries, List.filterMap_cons] at *
              simp only [List.length_cons]
              omega
            · intro p hp
              simp only [serverRetries, List.filterMap_cons] at hp
              simp at hp
              rcases hp with rfl | hp
              · rfl
              · exact h3 p (by simpa [serverRetries] using hp)
          · rw [if_neg hc]
            simpa [serverRetries] using hcnt
        · rw [if_neg (by simpa using h5)]
          simpa [serverRetries] using hcnt

/-- C8: the transport layer retries a 5xx response at most 3 times, the k-th
5xx retry (attempts numbered from 0) waits `2^attempt` seconds, and a response
status that is neither 5xx nor 429 triggers no retry at this layer (the
request is rejected immediately). -/
theorem transport_retry_spec (outs : List RoundOutcome) (rate : Nat) :
    (serverRetries (runRequest rate ⟨false, 0⟩ outs)).length ≤ 3 ∧
    (serverRetries (runRequest rate ⟨false, 0⟩ outs)).map Prod.fst =
      List.range (serverRetries (runRequest rate ⟨false, 0⟩ outs)).length ∧
    (∀ p ∈ serverRetries (runRequest rate ⟨false, 0⟩ outs), p.2 = 2 ^ p.1 * 1000) ∧
    (∀ (r : Nat) (cfg : ReqConfig) (e : ErrResponse) (rest : List RoundOutcome),
      ¬ is5xx e.status = true → e.status ≠ some 429 →
      runRequest r cfg (.err e :: rest) = [.rejected]) := by
  obtain ⟨h1, h2, h3⟩ := runRequest_server_invariant outs rate ⟨false, 0⟩ (by simp)
  refine ⟨by simpa using h2, ?_, h3, ?_⟩
  · simpa [List.range_eq_range'] using h1
  · intro r cfg e rest hne5 hne429
    simp only [runRequest]
    unfold interceptorOnError
    rw [if_neg hne429, if_neg (by simpa using hne5)]

/-- Closed instantiation of `transport_retry_spec`: a run of four straight 500
responses performs exactly 3 backoff retries with waits 1s, 2s, 4s, and a 403
response is rejected with no retry. -/
theorem transport_retry_spec_witness :
    serverRetries (runRequest 100 ⟨false, 0⟩
        [.err ⟨some 500, none⟩, .err ⟨some 500, none⟩, .err ⟨some 500, none⟩,
         .err ⟨some 500, none⟩]) = [(0, 1000), (1, 2000), (2, 4000)] ∧
    runRequest 100 ⟨false, 0⟩ [.err ⟨some 403, none⟩, .ok] = [.rejected] := by
  have h := transport_retry_spec
    [.err ⟨some 500, none⟩, .err ⟨some 500, none⟩, .err ⟨some 500, none⟩,
     .err ⟨some 500, none⟩] 100
  exact ⟨by decide, h.2.2.2 100 ⟨false, 0⟩ ⟨some 403, none⟩ [.ok] (by decide) (by decide)⟩

/-! ## Diff post-filters (`src/client/bitbucket.ts`, `applyDiffFilters`,
lines 814–872) -/

/-- ASCII whitespace for the model of `String.prototype.trim` (the lines the
code trims never contain the exotic Unicode space characters). -/
def isWsChar (c : Char) : Bool :=
  c == ' ' || c == '\t' || c == '\n' || c == '\r' || c == '\x0b' || c == '\x0c'

/-- Model of JavaScript `line.startsWith(pre)`. -/
def startsWithStr (l pre : Str) : Bool := pre.isPrefixOf l

/-- The literal `'diff --git'` tested by `line.startsWith`. -/
def sDiffGit : Str := "diff --git".data

/-- The literal `'---'`. -/
def sDashes3 : Str := "---".data

/-- The literal `'+++'`. -/
def sPluses3 : Str := "+++".data

/-- The literal `'@@'`. -/
def sAtAt : Str := "@@".data

/-- The literal `'+'`. -/
def sPlus : Str := "+".data

/-- The literal `'-'`. -/
def sDash : Str := "-".data

/-- Header lines that both diff post-filters always keep. -/
def isHeaderLine (l : Str) : Bool :=
  startsWithStr l sDiffGit || startsWithStr l sDashes3 ||
  startsWithStr l sPluses3 || startsWithStr l sAtAt

/-- The filter callback of the `ignore_whitespace` branch: keep headers,
drop `+`/`-` lines whose payload is empty after trimming, keep the rest. -/
def keepNonWhitespaceLine (line : Str) : Bool :=
  if isHeaderLine line then true
  else if (startsWithStr line sPlus || startsWithStr line sDash) &&
          (line.drop 1).all isWsChar then false
  else true

/-- The `context_lines` loop of `applyDiffFilters`: state is the `inHunk` flag
and the running `contextCount`; `@@` starts a hunk, header and `+`/`-` lines
are kept, and at most `n` unchanged context lines are kept after each change. -/
def trimContextLines (n : Nat) : Bool → Nat → List Str → List Str
  | _, _, [] => []
  | inHunk, ctx, l :: ls =>
    if startsWithStr l sAtAt then l :: trimContextLines n true 0 ls
    else if !inHunk || startsWithStr l sDiffGit || startsWithStr l sDashes3 ||
            startsWithStr l sPluses3 then l :: trimContextLines n inHunk ctx ls
    else if startsWithStr l sPlus || startsWithStr l sDash then
      l :: trimContextLines n inHunk 0 ls
    else if ctx < n then l :: trimContextLines n inHunk (ctx + 1) ls
    else trimContextLines n inHunk ctx ls

structure DiffFilterOptions where
  /-- `context_lines?: number`; the guard `context_lines >= 0` of the source is
  vacuous for the natural numbers the input schema admits. -/
  context_lines : Option Nat := none
  /-- `ignore_whitespace?: boolean`; an absent value is falsy. -/
  ignore_whitespace : Bool := false
  deriving Repr, DecidableEq

/-- `applyDiffFilters(diff, options)`: the whitespace suppression runs first
when requested, then the context trimming on the already-filtered text. -/
def applyDiffFilters (diff : Str) (options : DiffFilterOptions) : Str :=
  let d1 := if options.ignore_whitespace then
      joinNl ((splitNl diff).filter keepNonWhitespaceLine)
    else diff
  match options.context_lines with
  | some n => joinNl (trimContextLines n false 0 (splitNl d1))
  | none => d1

theorem trimContextLines_sublist (n : Nat) :
    ∀ (ls : List Str) (h : Bool) (c : Nat), (trimContextLines n h c ls).Sublist ls := by
  intro ls
  induction ls with
  | nil => intro h c; simp [trimContextLines]
  | cons l t ih =>
    intro h c
    simp only [trimContextLines]
    split
    · exact (ih true 0).cons₂ l
    · split
      · exact (ih h c).cons₂ l
      · split
        · exact (ih h 0).cons₂ l
        · split
          · exact (ih h (c + 1)).cons₂ l
          · exact (ih h c).cons l

theorem trimContextLines_keep_header (n : Nat) :
    ∀ (ls : List Str) (h : Bool) (c : Nat) (l : Str), l ∈ ls → isHeaderLine l = true →
      l ∈ trimContextLines n h c ls := by
  intro ls
  induction ls with
  | nil => intro h c l hl; simp at hl
  | cons x t ih =>
    intro h c l hl hhdr
    rcases List.mem_cons.mp hl with rfl | hl
    · by_cases hAt : startsWithStr l sAtAt = true
      · simp only [trimContextLines, if_pos hAt]
        exact List.mem_cons_self _ _
      · have hcond : (!h || startsWithStr l sDiffGit || startsWithStr l sDashes3 ||
            startsWithStr l sPluses3) = true := by
          simp only [isHeaderLine, Bool.or_eq_true] at hhdr
          rcases hhdr with ((hd | hd) | hd) | hd
          · simp [hd]
          · simp [hd]
          · simp [hd]
          · exact absurd hd hAt
        simp only [trimContextLines, if_neg hAt, if_pos hcond]
        exact List.mem_cons_self _ _
    · simp only [trimContextLines]
      split
      · exact List.mem_cons_of_mem _ (ih true 0 l hl hhdr)
      · split
        · exact List.mem_cons_of_mem _ (ih h c l hl hhdr)
        · split
          · exact List.mem_cons_of_mem _ (ih h 0 l hl hhdr)
          · split
            · exact List.mem_cons_of_mem _ (ih h (c + 1) l hl hhdr)
            · exact ih h c l hl hhdr

theorem trimContextLines_keep_change (n : Nat) :
    ∀ (ls : List Str) (h : Bool) (c : Nat) (l : Str), l ∈ ls →
      (startsWithStr l sPlus || startsWithStr l sDash) = true →
      l ∈ trimContextLines n h c ls := by
  intro ls
  induction ls with
  | nil => intro h c l hl; simp at hl
  | cons x t ih =>
    intro h c l hl hchg
    rcases List.mem_cons.mp hl with rfl | hl
    · simp only [trimContextLines]
      split
      · exact List.mem_cons_self _ _
      · split
        · exact List.mem_cons_self _ _
        · exact List.mem_cons_self _ _
    · simp only [trimContextLines]
      split
      · exact List.mem_cons_of_mem _ (ih true 0 l hl hchg)
      · split
        · exact List.mem_cons_of_mem _ (ih h c l hl hchg)
        · split
          · exact List.mem_cons_of_mem _ (ih h 0 l hl hchg)
          · split
            · exact List.mem_cons_of_mem _ (ih h (c + 1) l hl hchg)
            · exact ih h c l hl hchg

theorem trimContextLines_no_hunk_prefix (n : Nat) (c : Nat) :
    ∀ (xs ys : List Str), (∀ l ∈ xs, ¬ startsWithStr l sAtAt = true) →
      trimContextLines n false c (xs ++ ys) = xs ++ trimContextLines n false c ys := by
  intro xs
  induction xs with
  | nil => intro ys _; rfl
  | cons x t ih =>
    intro ys hx
    have hAt : ¬ startsWithStr x sAtAt = true := hx x (by simp)
    simp only [List.cons_append, trimContextLines, if_neg hAt, List.append_eq]
    rw [if_pos (by simp)]
    rw [ih ys (fun l hl => hx l (by simp [hl]))]

theorem trimContextLines_cons_ne_nil (n : Nat) (c : Nat) (l : Str) (ls : List Str) :
    ∃ t, trimContextLines n false c (l :: ls) = l :: t := by
  simp only [trimContextLines]
  by_cases hAt : startsWithStr l sAtAt = true
  · rw [if_pos hAt]; exact ⟨_, rfl⟩
  · rw [if_neg hAt, if_pos (by simp)]; exact ⟨_, rfl⟩

theorem keepNonWhitespaceLine_of_header (l : Str) (h : isHeaderLine l = true) :
    keepNonWhitespaceLine l = true := by
  simp [keepNonWhitespaceLine, h]

/-- C10: `applyDiffFilters` is the identity when no transform is requested
(`ignore_whitespace` absent/false and `context_lines` undefined). -/
theorem applyDiffFilters_id_of_no_options (d : Str) :
    applyDiffFilters d ⟨none, false⟩ = d := rfl

/-- C9: for every input and option combination, the output of
`applyDiffFilters` is the join of a subsequence of the input's newline-split
line sequence: both filters only delete whole lines, never modifying,
duplicating or reordering any line. -/
theorem applyDiffFilters_lines_sublist (d : Str) (options : DiffFilterOptions) :
    ∃ ls, ls.Sublist (splitNl d) ∧ applyDiffFilters d options = joinNl ls := by
  obtain ⟨ctx, ws⟩ := options
  cases ws with
  | false =>
    cases ctx with
    | none => exact ⟨splitNl d, List.Sublist.refl _, (joinNl_splitNl d).symm⟩
    | some n => exact ⟨trimContextLines n false 0 (splitNl d),
        trimContextLines_sublist n _ _ _, rfl⟩
  | true =>
    cases ctx with
    | none => exact ⟨(splitNl d).filter keepNonWhitespaceLine,
        List.filter_sublist _, rfl⟩
    | some n =>
      by_cases hne : (splitNl d).filter keepNonWhitespaceLine = []
      · refine ⟨[], List.nil_sublist _, ?_⟩
        have h1 : applyDiffFilters d ⟨some n, true⟩ = joinNl (trimContextLines n false 0
            (splitNl (joinNl ((splitNl d).filter keepNonWhitespaceLine)))) := rfl
        rw [h1, hne]
        rfl
      · have hsp : splitNl (joinNl ((splitNl d).filter keepNonWhitespaceLine)) =
            (splitNl d).filter keepNonWhitespaceLine := by
          refine splitNl_joinNl _ hne ?_
          intro l hl
          exact mem_splitNl_no_nl d l (List.mem_of_mem_filter hl)
        refine ⟨trimContextLines n false 0 ((splitNl d).filter keepNonWhitespaceLine),
          (trimContextLines_sublist n _ _ _).trans (List.filter_sublist _), ?_⟩
        have h1 : applyDiffFilters d ⟨some n, true⟩ = joinNl (trimContextLines n false 0
            (splitNl (joinNl ((splitNl d).filter keepNonWhitespaceLine)))) := rfl
        rw [h1, hsp]

/-- C6: the whitespace-suppression filter is idempotent, and it never removes
a line beginning with `diff --git`, `---`, `+++` or `@@`. -/
theorem applyDiffFilters_whitespace_idem (d : Str) :
    applyDiffFilters (applyDiffFilters d ⟨none, true⟩) ⟨none, true⟩ =
      applyDiffFilters d ⟨none, true⟩ ∧
    (∀ l ∈ splitNl d, isHeaderLine l = true →
      l ∈ splitNl (applyDiffFilters d ⟨none, true⟩)) := by
  have hout : applyDiffFilters d ⟨none, true⟩ =
      joinNl ((splitNl d).filter keepNonWhitespaceLine) := rfl
  by_cases hne : (splitNl d).filter keepNonWhitespaceLine = []
  · constructor
    · rw [hout, hne]
      rfl
    · intro l hl hh
      have : l ∈ (splitNl d).filter keepNonWhitespaceLine :=
        List.mem_filter.mpr ⟨hl, keepNonWhitespaceLine_of_header l hh⟩
      rw [hne] at this
      simp at this
  · have hsp : splitNl (applyDiffFilters d ⟨none, true⟩) =
        (splitNl d).filter keepNonWhitespaceLine := by
      rw [hout]
      refine splitNl_joinNl _ hne ?_
      intro l hl
      exact mem_splitNl_no_nl d l (List.mem_of_mem_filter hl)
    constructor
    · have h2 : applyDiffFilters (applyDiffFilters d ⟨none, true⟩) ⟨none, true⟩ =
          joinNl ((splitNl (applyDiffFilters d ⟨none, true⟩)).filter keepNonWhitespaceLine) :=
        rfl
      rw [h2, hsp, List.filter_filter, hout]
      congr 1
      apply List.filter_congr
      intro x _
      exact Bool.and_self _
    · intro l hl hh
      rw [hsp]
      exact List.mem_filter.mpr ⟨hl, keepNonWhitespaceLine_of_header l hh⟩

/-- Closed instantiation of `applyDiffFilters_whitespace_idem`: the file-pair
header of a small diff survives whitespace suppression. -/
theorem applyDiffFilters_whitespace_idem_witness :
    "diff --git a/x b/x".data ∈
      splitNl (applyDiffFilters "diff --git a/x b/x\n+  \n+z".data ⟨none, true⟩) :=
  (applyDiffFilters_whitespace_idem "diff --git a/x b/x\n+  \n+z".data).2
    "diff --git a/x b/x".data (by decide) (by decide)

/-- Modelled from the spec: position `i` of a diff's line list is inside a
hunk iff some `@@` hunk-header line at `j ≤ i` has no intervening
`diff --git` file-pair header strictly between `j` and `i` (a new file
section ends any hunk). -/
def insideHunkAt (ls : List Str) (i : Nat) : Bool :=
  (List.range (i + 1)).any fun j =>
    startsWithStr (ls.getD j []) sAtAt &&
    ((List.range' (j + 1) (i - j)).all fun k => ! startsWithStr (ls.getD k []) sDiffGit)

/-- Claim C5 as stated: for every diff and `context_lines` value in 0–10, the
context-trimming filter passes through every line outside any hunk and every
header line. -/
def claimC5ContextPassThrough : Prop :=
  ∀ (d : Str) (n : Nat), n ≤ 10 →
    ∀ i, i < (splitNl d).length →
      (insideHunkAt (splitNl d) i = false ∨ isHeaderLine ((splitNl d).getD i []) = true) →
      (splitNl d).getD i [] ∈ splitNl (applyDiffFilters d ⟨some n, false⟩)

/-- C5 counterexample: the `index 1` file-section line that follows a second
`diff --git` header sits outside any hunk, yet context trimming with
`context_lines = 0` removes it, because the filter's `inHunk` flag is never
reset at a file boundary. -/
theorem claimC5_counterexample : ¬ claimC5ContextPassThrough := by
  intro h
  have h3 := h "@@ -1 +1 @@\n+x\ndiff --git a/b b/b\nindex 1\n@@ -2 +2 @@\n+y".data
    0 (by decide) 3 (by decide) (by decide)
  revert h3
  decide

/-- C5 (amended): with context trimming alone (`context_lines = n ≤ 10`), the
output's line sequence is a subsequence of the input's; every line before the
first `@@` line of the whole text is preserved verbatim as a prefix; header
lines and `+`/`-` change lines always pass through.  (The filter treats every
non-header line after the first `@@` anywhere in the text as in-hunk context,
even across later `diff --git` boundaries.) -/
theorem applyDiffFilters_context_amended (d : Str) (n : Nat) (hn : n ≤ 10) :
    (splitNl (applyDiffFilters d ⟨some n, false⟩)).Sublist (splitNl d) ∧
    (∃ t, splitNl (applyDiffFilters d ⟨some n, false⟩) =
      (splitNl d).takeWhile (fun l => ! startsWithStr l sAtAt) ++ t) ∧
    (∀ l ∈ splitNl d, isHeaderLine l = true →
      l ∈ splitNl (applyDiffFilters d ⟨some n, false⟩)) ∧
    (∀ l ∈ splitNl d, (startsWithStr l sPlus || startsWithStr l sDash) = true →
      l ∈ splitNl (applyDiffFilters d ⟨some n, false⟩)) := by
  have hsplit : splitNl (applyDiffFilters d ⟨some n, false⟩) =
      trimContextLines n false 0 (splitNl d) := by
    have h1 : applyDiffFilters d ⟨some n, false⟩ =
        joinNl (trimContextLines n false 0 (splitNl d)) := rfl
    rw [h1]
    have hnl : ∀ l ∈ trimContextLines n false 0 (splitNl d), '\n' ∉ l := by
      intro l hl
      exact mem_splitNl_no_nl d l ((trimContextLines_sublist n _ _ _).subset hl)
    cases hd : splitNl d with
    | nil => exact absurd hd (splitNl_ne_nil d)
    | cons x xs =>
      obtain ⟨t, ht⟩ := trimContextLines_cons_ne_nil n 0 x xs
      rw [hd] at hnl
      exact splitNl_joinNl _ (by rw [ht]; simp) hnl
  refine ⟨?_, ?_, ?_, ?_⟩
  · rw [hsplit]
    exact trimContextLines_sublist n _ _ _
  · refine ⟨trimContextLines n false 0
      ((splitNl d).dropWhile (fun l => ! startsWithStr l sAtAt)), ?_⟩
    rw [hsplit]
    conv_lhs => rw [← List.takeWhile_append_dropWhile
      (fun l => ! startsWithStr l sAtAt) (splitNl d)]
    refine trimContextLines_no_hunk_prefix n 0 _ _ ?_
    intro l hl
    have := List.mem_takeWhile_imp hl
    simpa using this
  · intro l hl hh
    rw [hsplit]
    exact trimContextLines_keep_header n _ _ _ l hl hh
  · intro l hl hc
    rw [hsplit]
    exact trimContextLines_keep_change n _ _ _ l hl hc

/-- Closed instantiation of `applyDiffFilters_context_amended` on a small
diff with `context_lines = 0`. -/
theorem applyDiffFilters_context_amended_witness :
    "+p".data ∈ splitNl (applyDiffFilters "a\n@@ x\n+p\nc".data ⟨some 0, false⟩) ∧
    (splitNl (applyDiffFilters "a\n@@ x\n+p\nc".data ⟨some 0, false⟩)).Sublist
      (splitNl "a\n@@ x\n+p\nc".data) :=
  ⟨(applyDiffFilters_context_amended "a\n@@ x\n+p\nc".data 0 (by decide)).2.2.2
      "+p".data (by decide) (by decide),
   (applyDiffFilters_context_amended "a\n@@ x\n+p\nc".data 0 (by decide)).1⟩

/-! ## Diff parser (`src/client/bitbucket.ts`, `parseDiffForFileStats`,
lines 1065–1117)

The JavaScript file-header regexes `/diff --git a\/(.+?) b\/(.+)/` and
`/diff --git a\/(.+?) b\/(.+?)(?:\s|$)/` are modelled exactly: scan for the
leftmost occurrence of `diff --git a/`, then take the lazy-shortest nonempty
first group up to the first ` b/` separator that still leaves a nonempty
second group.  Array elements are object references in JavaScript, so a
header line that fails the regex leaves `currentFile` aliased to the record
already pushed; the model carries the number of pending pushes of the
current record and replays them on finalization. -/

/-- The literal `'diff --git a/'` that both file-header regexes must find. -/
def sGitA : Str := "diff --git a/".data

/-- Finds the first ` b/` separator (with a nonempty remainder) in the text
after the first captured character, returning (rest of group 1, text after
` b/`). -/
def findBsep : Str → Option (Str × Str)
  | [] => none
  | ' ' :: 'b' :: '/' :: d :: ds => some ([], d :: ds)
  | c :: cs => (findBsep cs).map fun p => (c :: p.1, p.2)

/-- Matches `(.+?) b\/(.+)` against the text following `diff --git a/`:
group 1 is lazy and nonempty, group 2 nonempty. -/
def matchTail : Str → Option (Str × Str)
  | [] => none
  | c :: r' => (findBsep r').map fun p => (c :: p.1, p.2)

/-- Model of `line.match(/diff --git a\/(.+?) b\/(.+)/)`: leftmost match,
lazy group 1, greedy group 2 (the rest of the line). -/
def reFilePair : Str → Option (Str × Str)
  | [] => none
  | l@(_ :: cs) =>
    if startsWithStr l sGitA then
      match matchTail (l.drop 13) with
      | some p => some p
      | none => reFilePair cs
    else reFilePair cs

/-- Shortens a nonempty greedy group-2 capture to the lazy capture of
`(.+?)(?:\s|$)`: the shortest nonempty prefix followed by whitespace or the
end of the line. -/
def lazyToWs : Str → Str
  | [] => []
  | [c] => [c]
  | c :: d :: rest => if isWsChar d then [c] else c :: lazyToWs (d :: rest)

/-- Model of `line.match(/diff --git a\/(.+?) b\/(.+?)(?:\s|$)/)` used by the
file-scoped extractor. -/
def reFilePairWs (l : Str) : Option (Str × Str) :=
  (reFilePair l).map fun p => (p.1, lazyToWs p.2)

/-- The record built by `parseDiffForFileStats` (interface `DiffStat`). -/
structure DiffStat where
  old : Option Str
  new : Option Str
  status : Str
  lines_added : Nat
  lines_removed : Nat
  deriving Repr, DecidableEq

/-- The literal `'new file mode'`. -/
def sNewFileMode : Str := "new file mode".data

/-- The literal `'deleted file mode'`. -/
def sDeletedFileMode : Str := "deleted file mode".data

/-- The record started at a matched `diff --git a/<old> b/<new>` header. -/
def newFileStat (p1 p2 : Str) : DiffStat where
  old := some p1
  new := some p2
  status := if p1 = p2 then "modified".data else "renamed".data
  lines_added := 0
  lines_removed := 0

/-- The per-line update of the current record on a non-header line: count
`+`/`-` lines (excluding `+++`/`---`), then reclassify on
`new file mode`/`deleted file mode` marker lines. -/
def updateStatLine (cur : DiffStat) (line : Str) : DiffStat :=
  let c1 := if startsWithStr line sPlus && ! startsWithStr line sPluses3 then
      { cur with lines_added := cur.lines_added + 1 }
    else if startsWithStr line sDash && ! startsWithStr line sDashes3 then
      { cur with lines_removed := cur.lines_removed + 1 }
    else cur
  let c2 := if startsWithStr line sNewFileMode then
      { c1 with status := "added".data, old := none }
    else c1
  if startsWithStr line sDeletedFileMode then
    { c2 with status := "removed".data, new := none }
  else c2

/-- Replays the pending pushes of the current record (the record was pushed
`k` times during the loop and once more after it). -/
def finalizePushes : Option (DiffStat × Nat) → List DiffStat
  | none => []
  | some (c, k) => List.replicate (k + 1) c

/-- The loop of `parseDiffForFileStats`: `cur` is `currentFile` paired with
the number of times that same object is already in `files`. -/
def parseStatsCore : List DiffStat → Option (DiffStat × Nat) → List Str → List DiffStat
  | fin, cur, [] => fin ++ finalizePushes cur
  | fin, cur, l :: ls =>
    if startsWithStr l sDiffGit then
      match reFilePair l, cur with
      | some p, some (c, k) =>
        parseStatsCore (fin ++ List.replicate (k + 1) c) (some (newFileStat p.1 p.2, 0)) ls
      | some p, none => parseStatsCore fin (some (newFileStat p.1 p.2, 0)) ls
      | none, some (c, k) => parseStatsCore fin (some (c, k + 1)) ls
      | none, none => parseStatsCore fin none ls
    else
      parseStatsCore fin (cur.map fun p => (updateStatLine p.1 l, p.2)) ls

/-- `parseDiffForFileStats(diffText)`. -/
def parseDiffForFileStats (diffText : Str) : List DiffStat :=
  parseStatsCore [] none (splitNl diffText)

/-- A `+` content line (not a `+++` header). -/
def isPlusLine (l : Str) : Bool := startsWithStr l sPlus && ! startsWithStr l sPluses3

/-- A `-` content line (not a `---` header). -/
def isMinusLine (l : Str) : Bool := startsWithStr l sDash && ! startsWithStr l sDashes3

/-- The observable of claim C3: a record's (added, removed) counts. -/
def statCounts (s : DiffStat) : Nat × Nat := (s.lines_added, s.lines_removed)

/-- Modelled from the claim: exactly one (added, removed) pair per
`diff --git` header line, in header order, counting the `+`/`-` lines
(excluding `+++`/`---`) between that header and the next. -/
def specHeaderStats : Option (Nat × Nat) → List Str → List (Nat × Nat)
  | cur, [] => cur.toList
  | cur, l :: ls =>
    if startsWithStr l sDiffGit then cur.toList ++ specHeaderStats (some (0, 0)) ls
    else specHeaderStats (cur.map fun p =>
      (p.1 + (if isPlusLine l then 1 else 0), p.2 + (if isMinusLine l then 1 else 0))) ls

/-- Claim C3 as stated, quantified over every diff text. -/
def claimC3ParseStats : Prop :=
  ∀ d : Str, (parseDiffForFileStats d).map statCounts = specHeaderStats none (splitNl d)

/-- C3 counterexample: a `diff --git` header that does not match the
`a/<old> b/<new>` pattern leaves `currentFile` aliased to the record already
pushed, so the parser returns the first file's record twice, with both copies
counting the `+` lines of both segments. -/
theorem claimC3_counterexample : ¬ claimC3ParseStats := by
  intro h
  have h2 := h "diff --git a/x b/x\n+1\ndiff --git oops\n+2".data
  revert h2
  decide

theorem updateStatLine_counts (c : DiffStat) (l : Str) :
    statCounts (updateStatLine c l) =
      (c.lines_added + (if isPlusLine l then 1 else 0),
       c.lines_removed + (if isMinusLine l then 1 else 0)) := by
  unfold updateStatLine statCounts isPlusLine isMinusLine
  by_cases hp : (startsWithStr l sPlus && ! startsWithStr l sPluses3) = true
  · simp only [if_pos hp, hp]
    have hm : ¬ (startsWithStr l sDash && ! startsWithStr l sDashes3) = true := by
      simp only [Bool.and_eq_true] at hp ⊢
      intro hm
      have h1 := hp.1
      have h2 := hm.1
      simp only [startsWithStr, sPlus, sDash] at h1 h2
      cases l with
      | nil => simp [List.isPrefixOf] at h1
      | cons a t =>
        simp [List.isPrefixOf] at h1 h2
        rw [← h1] at h2
        exact absurd h2 (by decide)
    simp only [hm, if_neg hm]
    split <;> split <;> rfl
  · simp only [if_neg hp, hp]
    by_cases hm : (startsWithStr l sDash && ! startsWithStr l sDashes3) = true
    · simp only [if_pos hm, hm]
      split <;> split <;> rfl
    · simp only [if_neg hm, hm]
      split <;> split <;> rfl

theorem parseStatsCore_spec (ls : List Str)
    (hwf : ∀ l ∈ ls, startsWithStr l sDiffGit = true → (reFilePair l).isSome) :
    ∀ fin : List DiffStat,
      ((parseStatsCore fin none ls).map statCounts =
        fin.map statCounts ++ specHeaderStats none ls) ∧
      (∀ c : DiffStat, (parseStatsCore fin (some (c, 0)) ls).map statCounts =
        fin.map statCounts ++ specHeaderStats (some (statCounts c)) ls) := by
  induction ls with
  | nil =>
    intro fin
    constructor
    · simp [parseStatsCore, finalizePushes, specHeaderStats]
    · intro c
      simp [parseStatsCore, finalizePushes, specHeaderStats, List.replicate]
  | cons l t ih =>
    intro fin
    have hwf' : ∀ x ∈ t, startsWithStr x sDiffGit = true → (reFilePair x).isSome :=
      fun x hx => hwf x (by simp [hx])
    by_cases hh : startsWithStr l sDiffGit = true
    · obtain ⟨p, hp⟩ := Option.isSome_iff_exists.mp (hwf l (by simp) hh)
      constructor
      · simp only [parseStatsCore, if_pos hh, hp, specHeaderStats]
        have := (ih hwf' fin).2 (newFileStat p.1 p.2)
        simpa [newFileStat, statCounts, Option.toList] using this
      · intro c
        simp only [parseStatsCore, if_pos hh, hp, specHeaderStats]
        have := (ih hwf' (fin ++ List.replicate (0 + 1) c)).2 (newFileStat p.1 p.2)
        simp only [List.map_append] at this
        simpa [newFileStat, statCounts, Option.toList, List.replicate] using this
    · constructor
      · simp only [parseStatsCore, if_neg hh, specHeaderStats, Option.map]
        exact (ih hwf' fin).1
      · intro c
        simp only [parseStatsCore, if_neg hh, specHeaderStats, Option.map]
        have := (ih hwf' fin).2 (updateStatLine c l)
        rw [this, updateStatLine_counts]
        rfl

/-- C3 (amended): for every diff text in which each `diff --git` line matches
the header pattern `a/<old> b/<new>`, `parseDiffForFileStats` returns exactly
one record per header line, in header order, whose added/removed counts are
the number of `+`/`-` lines (excluding `+++`/`---`) between that header and
the next (or the end of input). -/
theorem parseDiffForFileStats_wellformed (d : Str)
    (hwf : ∀ l ∈ splitNl d, startsWithStr l sDiffGit = true → (reFilePair l).isSome) :
    (parseDiffForFileStats d).map statCounts = specHeaderStats none (splitNl d) := by
  have h := (parseStatsCore_spec (splitNl d) hwf []).1
  simpa [parseDiffForFileStats] using h

/-- Closed instantiation of `parseDiffForFileStats_wellformed` on a two-file
diff with well-formed headers. -/
theorem parseDiffForFileStats_wellformed_witness :
    (parseDiffForFileStats "diff --git a/x b/x\n+1\n-2\n x\ndiff --git a/y b/y\n+3".data).map
        statCounts =
      specHeaderStats none (splitNl "diff --git a/x b/x\n+1\n-2\n x\ndiff --git a/y b/y\n+3".data) :=
  parseDiffForFileStats_wellformed _ (by decide)

/-! ## File-scoped diff extractor (`src/client/bitbucket.ts`,
`extractFileFromDiff`, lines 710–812) -/

/-- Model of `path.replace(/^\/+/, '').replace(/\/+$/, '')`: strip leading
and trailing slashes. -/
def stripSlashes (p : Str) : Str :=
  ((p.dropWhile (fun c => c = '/')).reverse.dropWhile (fun c => c = '/')).reverse

/-- One candidate of the extractor's `pathsToCheck.some(...)` predicate. -/
def pathMatches (path filePath normTarget : Str) : Bool :=
  let normalizedPath := stripSlashes path
  normalizedPath == normTarget ||
  ('/' :: normTarget).isSuffixOf normalizedPath ||
  ('/' :: normalizedPath).isSuffixOf normTarget ||
  strContains path filePath || strContains filePath path

/-- Model of JavaScript `String.prototype.split(sep)` for a one-character
separator. -/
def splitChar (sep : Char) : Str → List Str
  | [] => [[]]
  | c :: rest =>
    if c = sep then [] :: splitChar sep rest
    else
      match splitChar sep rest with
      | [] => [[c]]
      | l :: ls => (c :: l) :: ls

/-- Model of `line.split(' ').pop() || ''` (split never yields an empty
array, and `'' || ''` is `''`). -/
def lastSpaceToken (line : Str) : Str := (splitChar ' ' line).getLastD []

/-- Model of `filePath.split('/').pop() || filePath` (an empty last segment
is falsy and falls back to the whole path). -/
def fileNameOf (filePath : Str) : Str :=
  let last := (splitChar '/' filePath).getLastD []
  if last.isEmpty then filePath else last

/-- The extractor's per-header decision for `inTargetFile`: on a regex match,
the lenient multi-pattern check over `[pathA, pathB, normalizedTargetPath]`;
otherwise the raw-line fallback check. -/
def headerSelects (line filePath : Str) : Bool :=
  match reFilePairWs line with
  | some pq =>
    let normTarget := stripSlashes filePath
    pathMatches pq.1 filePath normTarget || pathMatches pq.2 filePath normTarget ||
      pathMatches normTarget filePath normTarget
  | none => strContains line filePath || strContains filePath (lastSpaceToken line)

/-- The paths a header line contributes to `matchedPaths`. -/
def matchedOf (line : Str) : List Str :=
  match reFilePairWs line with
  | some pq => [pq.1, pq.2]
  | none => []

/-- Loop state of the extractor's main pass. -/
structure ExtractState where
  fileBlocks : List (List Str)
  currentBlock : List Str
  inTargetFile : Bool
  matchedPaths : List Str
  deriving Repr, DecidableEq

/-- One iteration of the extractor's main loop. -/
def extractStep (filePath : Str) (st : ExtractState) (line : Str) : ExtractState :=
  if startsWithStr line sDiffGit then
    { fileBlocks := if st.inTargetFile && ! st.currentBlock.isEmpty
        then st.fileBlocks ++ [st.currentBlock] else st.fileBlocks,
      currentBlock := [line],
      inTargetFile := headerSelects line filePath,
      matchedPaths := st.matchedPaths ++ matchedOf line }
  else { st with currentBlock := st.currentBlock ++ [line] }

/-- The extractor's main pass: final (fileBlocks, matchedPaths) after the
trailing flush. -/
def extractMain (filePath : Str) (lines : List Str) : List (List Str) × List Str :=
  let st := lines.foldl (extractStep filePath) ⟨[], [], false, []⟩
  (if st.inTargetFile && ! st.currentBlock.isEmpty
    then st.fileBlocks ++ [st.currentBlock] else st.fileBlocks,
   st.matchedPaths)

/-- Loop state of the extractor's lenient second pass. -/
structure LenientState where
  blocks : List (List Str)
  cur : List Str
  inFile : Bool
  deriving Repr, DecidableEq

/-- One iteration of the lenient pass (filename containment only). -/
def lenientStep (fileName : Str) (st : LenientState) (line : Str) : LenientState :=
  if startsWithStr line sDiffGit then
    { blocks := if st.inFile && ! st.cur.isEmpty then st.blocks ++ [st.cur] else st.blocks,
      cur := [line],
      inFile := strContains line fileName }
  else { st with cur := st.cur ++ [line] }

/-- The lenient pass over the same lines, with the trailing flush. -/
def lenientBlocksOf (fileName : Str) (lines : List Str) : List (List Str) :=
  let st := lines.foldl (lenientStep fileName) ⟨[], [], false⟩
  if st.inFile && ! st.cur.isEmpty then st.blocks ++ [st.cur] else st.blocks

/-- Model of `fileBlocks.join('\n\n')` where each block is itself joined
with `'\n'`. -/
def blocksJoin : List (List Str) → Str
  | [] => []
  | [b] => joinNl b
  | b :: b' :: bs => joinNl b ++ '\n' :: '\n' :: blocksJoin (b' :: bs)

/-- Model of `result.trim().length === 0`: the text is all whitespace. -/
def isBlankStr (t : Str) : Bool := t.all isWsChar

/-- Decimal digit characters for the model of JavaScript number-to-string
interpolation. -/
def digitChar : Nat → Char
  | 0 => '0' | 1 => '1' | 2 => '2' | 3 => '3' | 4 => '4'
  | 5 => '5' | 6 => '6' | 7 => '7' | 8 => '8' | _ => '9'

/-- Decimal digits of `n`, with fuel for structural recursion. -/
def natDigitsAux : Nat → Nat → Str
  | 0, _ => []
  | fuel + 1, n =>
    if n < 10 then [digitChar n]
    else natDigitsAux fuel (n / 10) ++ [digitChar (n % 10)]

/-- Model of `${n}` for a natural number. -/
def natToStr (n : Nat) : Str := natDigitsAux (n + 1) n

/-- The extractor's `No changes found` message template. -/
def noChangesMessage (filePath : Str) (numPaths : Nat) : Str :=
  ("No changes found for file: ".data ++ filePath) ++
  '\n' :: '\n' :: ("Note: Searched in diff containing ".data ++ natToStr numPaths ++
    " file paths. Try using just the filename or a partial path.".data)

/-- `extractFileFromDiff(fullDiff, filePath)`: main pass, then the lenient
filename pass when the result is blank, then the `No changes found` message. -/
def extractFileFromDiff (fullDiff filePath : Str) : Str :=
  let lines := splitNl fullDiff
  let mm := extractMain filePath lines
  let result := blocksJoin mm.1
  if isBlankStr result then
    let fileName := fileNameOf filePath
    let lb := lenientBlocksOf fileName lines
    if ! lb.isEmpty then blocksJoin lb
    else noChangesMessage filePath mm.2.length
  else result

/-- Claim C4 as stated: extraction is idempotent for every diff and target. -/
def claimC4Idempotent : Prop :=
  ∀ d p : Str, extractFileFromDiff (extractFileFromDiff d p) p = extractFileFromDiff d p

/-- C4 counterexample: on a two-file diff both blocks are selected (the
`pathsToCheck` list contains the normalized target itself, so every matched
header passes the check), the blocks are joined with a blank line, and
re-extraction moves that blank line into the first block, changing the
text. -/
theorem claimC4_counterexample : ¬ claimC4Idempotent := by
  intro h
  have h2 := h "diff --git a/x b/x\n+1\ndiff --git a/y b/y\n+2".data "x".data
  revert h2
  decide

theorem dropWhile_dropWhile_same {α : Type} (p : α → Bool) (l : List α) :
    (l.dropWhile p).dropWhile p = l.dropWhile p := by
  induction l with
  | nil => rfl
  | cons a t ih =>
    by_cases h : p a = true
    · simp [List.dropWhile_cons, h, ih]
    · simp [List.dropWhile_cons, h]

theorem dropWhile_head_false {α : Type} (p : α → Bool) :
    ∀ (l : List α) (x : α) (xs : List α), l.dropWhile p = x :: xs → p x = false := by
  intro l
  induction l with
  | nil => intro x xs h; simp [List.dropWhile] at h
  | cons a t ih =>
    intro x xs h
    by_cases hp : p a = true
    · rw [List.dropWhile_cons, if_pos hp] at h
      exact ih x xs h
    · rw [List.dropWhile_cons, if_neg hp] at h
      cases h
      simpa using hp

theorem dropWhile_suffix_exists {α : Type} (p : α → Bool) (l : List α) :
    ∃ s, s ++ l.dropWhile p = l := by
  induction l with
  | nil => exact ⟨[], rfl⟩
  | cons a t ih =>
    by_cases hp : p a = true
    · obtain ⟨s, hs⟩ := ih
      exact ⟨a :: s, by simp [List.dropWhile_cons, hp, hs]⟩
    · exact ⟨[], by simp [List.dropWhile_cons, hp]⟩

theorem revDrop_front_clean {α : Type} (q : α → Bool) (z : List α)
    (hz : z.dropWhile q = z) :
    ((z.reverse.dropWhile q).reverse).dropWhile q = (z.reverse.dropWhile q).reverse := by
  cases z with
  | nil => rfl
  | cons a t =>
    have hqa : q a = false := dropWhile_head_false q (a :: t) a t hz
    cases hdw : (a :: t).reverse.dropWhile q with
    | nil => simp [hdw]
    | cons b bs =>
      obtain ⟨s, hs⟩ := dropWhile_suffix_exists q (a :: t).reverse
      rw [hdw] at hs
      have hy : (b :: bs).reverse ++ s.reverse = a :: t := by
        have := congrArg List.reverse hs
        simpa [List.reverse_append] using this
      cases hyc : (b :: bs).reverse with
      | nil => simp at hyc
      | cons c ys =>
        rw [hyc] at hy
        rw [List.cons_append] at hy
        have hc : c = a := (List.cons.injEq _ _ _ _ ▸ hy).1
        rw [List.dropWhile_cons, if_neg (by rw [hc, hqa]; simp)]

theorem stripSlashes_idem (p : Str) : stripSlashes (stripSlashes p) = stripSlashes p := by
  have h1 : (p.dropWhile (fun c => c = '/')).dropWhile (fun c => c = '/') =
      p.dropWhile (fun c => c = '/') := dropWhile_dropWhile_same _ _
  have h2 := revDrop_front_clean (fun c => c = '/') (p.dropWhile (fun c => c = '/')) h1
  unfold stripSlashes
  rw [h2, List.reverse_reverse, dropWhile_dropWhile_same]

theorem headerSelects_of_match (line filePath : Str) (pq : Str × Str)
    (h : reFilePairWs line = some pq) : headerSelects line filePath = true := by
  unfold headerSelects
  rw [h]
  have hm : pathMatches (stripSlashes filePath) filePath (stripSlashes filePath) = true := by
    unfold pathMatches
    have hb : (stripSlashes (stripSlashes filePath) == stripSlashes filePath) = true := by
      rw [stripSlashes_idem]
      exact beq_self_eq_true _
    simp only [hb, Bool.true_or]
  simp [hm]

theorem extractStep_foldl_free (p : Str) (xs : List Str)
    (hfree : ∀ l ∈ xs, startsWithStr l sDiffGit = false) :
    ∀ st : ExtractState, xs.foldl (extractStep p) st =
      { st with currentBlock := st.currentBlock ++ xs } := by
  induction xs with
  | nil => intro st; cases st; simp
  | cons x t ih =>
    intro st
    have hx : startsWithStr x sDiffGit = false := hfree x (by simp)
    rw [List.foldl_cons]
    rw [show extractStep p st x = { st with currentBlock := st.currentBlock ++ [x] } from by
      unfold extractStep; rw [if_neg (by simp [hx])]]
    rw [ih (fun l hl => hfree l (by simp [hl]))]
    simp

theorem lenientStep_foldl_free (fn : Str) (xs : List Str)
    (hfree : ∀ l ∈ xs, startsWithStr l sDiffGit = false) :
    ∀ st : LenientState, xs.foldl (lenientStep fn) st =
      { st with cur := st.cur ++ xs } := by
  induction xs with
  | nil => intro st; cases st; simp
  | cons x t ih =>
    intro st
    have hx : startsWithStr x sDiffGit = false := hfree x (by simp)
    rw [List.foldl_cons]
    rw [show lenientStep fn st x = { st with cur := st.cur ++ [x] } from by
      unfold lenientStep; rw [if_neg (by simp [hx])]]
    rw [ih (fun l hl => hfree l (by simp [hl]))]
    simp

theorem headers_decomposition (ls : List Str)
    (h : ls.countP (fun l => startsWithStr l sDiffGit) ≤ 1) :
    (∀ l ∈ ls, startsWithStr l sDiffGit = false) ∨
    ∃ pre hd post, ls = pre ++ hd :: post ∧
      (∀ l ∈ pre, startsWithStr l sDiffGit = false) ∧
      startsWithStr hd sDiffGit = true ∧
      (∀ l ∈ post, startsWithStr l sDiffGit = false) := by
  cases hdw : ls.dropWhile (fun l => ! startsWithStr l sDiffGit) with
  | nil =>
    left
    intro l hl
    have htw : ls.takeWhile (fun l => ! startsWithStr l sDiffGit) = ls := by
      have hx := List.takeWhile_append_dropWhile (fun l => ! startsWithStr l sDiffGit) ls
      rw [hdw] at hx
      simpa using hx
    rw [← htw] at hl
    have := List.mem_takeWhile_imp hl
    simpa using this
  | cons hd post =>
    right
    refine ⟨ls.takeWhile (fun l => ! startsWithStr l sDiffGit), hd, post, ?_, ?_, ?_, ?_⟩
    · rw [← hdw]
      exact (List.takeWhile_append_dropWhile _ _).symm
    · intro l hl
      have := List.mem_takeWhile_imp hl
      simpa using this
    · have := dropWhile_head_false _ ls hd post hdw
      simpa using this
    · have hsplit : ls = ls.takeWhile (fun l => ! startsWithStr l sDiffGit) ++ hd :: post := by
        rw [← hdw]
        exact (List.takeWhile_append_dropWhile _ _).symm
      have hcnt : (hd :: post).countP (fun l => startsWithStr l sDiffGit) ≤ 1 := by
        calc (hd :: post).countP (fun l => startsWithStr l sDiffGit)
            ≤ (ls.takeWhile (fun l => ! startsWithStr l sDiffGit)).countP
                (fun l => startsWithStr l sDiffGit) +
              (hd :: post).countP (fun l => startsWithStr l sDiffGit) := by omega
          _ = ls.countP (fun l => startsWithStr l sDiffGit) := by
              rw [← List.countP_append, ← hsplit]
          _ ≤ 1 := h
      have hhd : startsWithStr hd sDiffGit = true := by
        have := dropWhile_head_false _ ls hd post hdw
        simpa using this
      rw [List.countP_cons, if_pos hhd] at hcnt
      have hzero : post.countP (fun l => startsWithStr l sDiffGit) = 0 := by omega
      intro l hl
      have := List.countP_eq_zero.mp hzero l hl
      simpa using this

theorem lenient_no_header (fn : Str) (ls : List Str)
    (hfree : ∀ l ∈ ls, startsWithStr l sDiffGit = false) :
    lenientBlocksOf fn ls = [] := by
  unfold lenientBlocksOf
  rw [lenientStep_foldl_free fn ls hfree ⟨[], [], false⟩]
  simp

theorem extract_no_header (d p : Str)
    (hfree : ∀ l ∈ splitNl d, startsWithStr l sDiffGit = false) :
    extractFileFromDiff d p = noChangesMessage p 0 := by
  have h1 : extractFileFromDiff d p =
      (if isBlankStr (blocksJoin (extractMain p (splitNl d)).1) then
        (if ! (lenientBlocksOf (fileNameOf p) (splitNl d)).isEmpty then
          blocksJoin (lenientBlocksOf (fileNameOf p) (splitNl d))
        else noChangesMessage p (extractMain p (splitNl d)).2.length)
      else blocksJoin (extractMain p (splitNl d)).1) := rfl
  have hmain : extractMain p (splitNl d) = ([], []) := by
    unfold extractMain
    rw [extractStep_foldl_free p (splitNl d) hfree ⟨[], [], false, []⟩]
    simp
  rw [h1, hmain, lenient_no_header _ _ hfree]
  rfl

theorem isBlank_join_header (hd : Str) (post : List Str)
    (hhd : startsWithStr hd sDiffGit = true) :
    isBlankStr (joinNl (hd :: post)) = false := by
  cases hd with
  | nil => simp [startsWithStr, sDiffGit, List.isPrefixOf] at hhd
  | cons a t =>
    have ha : a = 'd' := by
      have h : sDiffGit = 'd' :: "iff --git".data := rfl
      rw [startsWithStr, h] at hhd
      simp [List.isPrefixOf] at hhd
      exact hhd.1.symm
    subst ha
    cases post with
    | nil => simp [joinNl, isBlankStr, List.all_cons, show isWsChar 'd' = false from rfl]
    | cons b bs =>
      rw [joinNl_cons _ _ (by simp)]
      simp [isBlankStr, List.all_cons, show isWsChar 'd' = false from rfl]

theorem extract_one_header (d p : Str) (pre post : List Str) (hd : Str)
    (hdec : splitNl d = pre ++ hd :: post)
    (hpre : ∀ l ∈ pre, startsWithStr l sDiffGit = false)
    (hhd : startsWithStr hd sDiffGit = true)
    (hpost : ∀ l ∈ post, startsWithStr l sDiffGit = false) :
    extractFileFromDiff d p =
      if (headerSelects hd p || strContains hd (fileNameOf p)) = true
      then joinNl (hd :: post) else noChangesMessage p 0 := by
  have h1 : extractFileFromDiff d p =
      (if isBlankStr (blocksJoin (extractMain p (splitNl d)).1) then
        (if ! (lenientBlocksOf (fileNameOf p) (splitNl d)).isEmpty then
          blocksJoin (lenientBlocksOf (fileNameOf p) (splitNl d))
        else noChangesMessage p (extractMain p (splitNl d)).2.length)
      else blocksJoin (extractMain p (splitNl d)).1) := rfl
  have hmain : extractMain p (splitNl d) =
      ((if headerSelects hd p then [hd :: post] else []), matchedOf hd) := by
    unfold extractMain
    rw [hdec, List.foldl_append]
    rw [extractStep_foldl_free p pre hpre ⟨[], [], false, []⟩]
    rw [List.foldl_cons]
    rw [show extractStep p
        { fileBlocks := [], currentBlock := [] ++ pre, inTargetFile := false,
          matchedPaths := [] } hd =
      { fileBlocks := [], currentBlock := [hd], inTargetFile := headerSelects hd p,
        matchedPaths := matchedOf hd } from by
      unfold extractStep; rw [if_pos hhd]; simp]
    rw [extractStep_foldl_free p post hpost _]
    by_cases hsel : headerSelects hd p = true
    · simp [hsel]
    · simp [hsel]
  have hlen : lenientBlocksOf (fileNameOf p) (splitNl d) =
      (if strContains hd (fileNameOf p) then [hd :: post] else []) := by
    unfold lenientBlocksOf
    rw [hdec, List.foldl_append]
    rw [lenientStep_foldl_free (fileNameOf p) pre hpre ⟨[], [], false⟩]
    rw [List.foldl_cons]
    rw [show lenientStep (fileNameOf p)
        { blocks := [], cur := [] ++ pre, inFile := false } hd =
      { blocks := [], cur := [hd], inFile := strContains hd (fileNameOf p) } from by
      unfold lenientStep; rw [if_pos hhd]; simp]
    rw [lenientStep_foldl_free (fileNameOf p) post hpost _]
    by_cases hcon : strContains hd (fileNameOf p) = true
    · simp [hcon]
    · simp [hcon]
  have hmatched : headerSelects hd p = false → matchedOf hd = [] := by
    intro hsel
    unfold matchedOf
    cases hm : reFilePairWs hd with
    | none => rfl
    | some pq => exact absurd (headerSelects_of_match hd p pq hm) (by simp [hsel])
  rw [h1, hmain, hlen]
  by_cases hsel : headerSelects hd p = true
  · rw [if_pos hsel]
    have hbj : blocksJoin [hd :: post] = joinNl (hd :: post) := rfl
    rw [hbj, isBlank_join_header hd post hhd]
    simp only [Bool.false_eq_true, if_false]
    rw [if_pos (by simp [hsel])]
  · rw [if_neg hsel]
    have hz : isBlankStr (blocksJoin ([] : List (List Str))) = true := rfl
    rw [hz, if_pos rfl]
    by_cases hcon : strContains hd (fileNameOf p) = true
    · rw [if_pos hcon]
      have : ([hd :: post] : List (List Str)).isEmpty = false := rfl
      rw [this]
      simp only [Bool.not_false, if_true]
      rw [if_pos (by simp [hcon])]
      rfl
    · rw [if_neg hcon]
      have : ([] : List (List Str)).isEmpty = true := rfl
      rw [this]
      simp only [Bool.not_true, Bool.false_eq_true, if_false]
      rw [hmatched (by simpa using hsel)]
      rw [if_neg (by simp [hsel, hcon])]
      rfl

theorem splitNl_cons_nl (r : Str) : splitNl ('\n' :: r) = [] :: splitNl r := by
  simp [splitNl]

theorem splitNl_noChangesMessage_zero (p : Str) (hp : '\n' ∉ p) :
    splitNl (noChangesMessage p 0) =
      ["No changes found for file: ".data ++ p, [],
       "Note: Searched in diff containing ".data ++ natToStr 0 ++
         " file paths. Try using just the filename or a partial path.".data] := by
  unfold noChangesMessage
  rw [splitNl_append_nl _ _ (by
    intro hmem
    rcases List.mem_append.mp hmem with hA | hP
    · revert hA; decide
    · exact hp hP)]
  rw [splitNl_cons_nl]
  rw [splitNl_no_nl _ (by
    intro hmem
    rcases List.mem_append.mp hmem with hB | hT
    · rcases List.mem_append.mp hB with hB' | hD
      · revert hB'; decide
      · revert hD; decide
    · revert hT; decide)]

theorem startsWith_sDiffGit_head (a : Char) (xs : Str) (ha : a ≠ 'd') :
    startsWithStr (a :: xs) sDiffGit = false := by
  have h : sDiffGit = 'd' :: "iff --git".data := rfl
  rw [startsWithStr, h]
  have hne : ('d' == a) = false := by
    rw [beq_eq_false_iff_ne]
    exact fun h' => ha h'.symm
  simp [List.isPrefixOf, hne]

theorem noChangesMessage_lines_free (p : Str) (hp : '\n' ∉ p) :
    ∀ l ∈ splitNl (noChangesMessage p 0), startsWithStr l sDiffGit = false := by
  rw [splitNl_noChangesMessage_zero p hp]
  intro l hl
  simp only [List.mem_cons, List.not_mem_nil, or_false] at hl
  rcases hl with rfl | rfl | rfl
  · rw [show "No changes found for file: ".data ++ p =
      'N' :: ("o changes found for file: ".data ++ p) from rfl]
    exact startsWith_sDiffGit_head 'N' _ (by decide)
  · decide
  · rw [show "Note: Searched in diff containing ".data ++ natToStr 0 ++
      " file paths. Try using just the filename or a partial path.".data =
      'N' :: ("ote: Searched in diff containing ".data ++ natToStr 0 ++
        " file paths. Try using just the filename or a partial path.".data) from rfl]
    exact startsWith_sDiffGit_head 'N' _ (by decide)

theorem extract_message_fixed (p : Str) (hp : '\n' ∉ p) :
    extractFileFromDiff (noChangesMessage p 0) p = noChangesMessage p 0 :=
  extract_no_header (noChangesMessage p 0) p (noChangesMessage_lines_free p hp)

/-- C4 (amended): `extractFileFromDiff` is idempotent on every diff whose text
contains at most one `diff --git` header line, for every target path without a
newline.  (With two or more selected blocks the blocks are joined by a blank
line which re-extraction absorbs into the preceding block, so full generality
fails.) -/
theorem extractFileFromDiff_idem_amended (d p : Str) (hp : '\n' ∉ p)
    (hcount : (splitNl d).countP (fun l => startsWithStr l sDiffGit) ≤ 1) :
    extractFileFromDiff (extractFileFromDiff d p) p = extractFileFromDiff d p := by
  rcases headers_decomposition (splitNl d) hcount with
    hfree | ⟨pre, hd, post, hdec, hpre, hhd, hpost⟩
  · rw [extract_no_header d p hfree]
    exact extract_message_fixed p hp
  · rw [extract_one_header d p pre post hd hdec hpre hhd hpost]
    by_cases hsel : (headerSelects hd p || strContains hd (fileNameOf p)) = true
    · rw [if_pos hsel]
      have hnl : ∀ l ∈ hd :: post, '\n' ∉ l := by
        intro l hl
        apply mem_splitNl_no_nl d
        rw [hdec]
        simp only [List.mem_append, List.mem_cons]
        right
        simpa using hl
      have hsplit : splitNl (joinNl (hd :: post)) = hd :: post :=
        splitNl_joinNl _ (by simp) hnl
      rw [extract_one_header (joinNl (hd :: post)) p [] post hd
        (by simpa using hsplit) (by simp) hhd hpost]
      rw [if_pos hsel]
    · rw [if_neg hsel]
      exact extract_message_fixed p hp

/-- Closed instantiation of `extractFileFromDiff_idem_amended` on a
single-file diff. -/
theorem extractFileFromDiff_idem_amended_witness :
    extractFileFromDiff
        (extractFileFromDiff "diff --git a/x b/x\n+1\n-2".data "x".data) "x".data =
      extractFileFromDiff "diff --git a/x b/x\n+1\n-2".data "x".data :=
  extractFileFromDiff_idem_amended "diff --git a/x b/x\n+1\n-2".data "x".data
    (by decide) (by decide)

/-! ## Enhanced diff retrieval (`src/client/bitbucket.ts`,
`getPullRequestDiffEnhanced`, lines 526–612)

The two upstream fetches of the success path are supplied as inputs:
`fullDiff` stands for the resolved value of `getPullRequestDiff` and
`diffStat` for that of `getPullRequestDiffStat`; `fileDiff` stands for the
value of `getFileSpecificDiff` used by the `file_path` branch. -/

/-- Model of `a?.path || b` where an empty path is falsy. -/
def jsOrVal (a : Option Str) (b : Str) : Str :=
  match a with
  | some q => if q.isEmpty then b else q
  | none => b

/-- `stat.new?.path || stat.old?.path || 'unknown'`. -/
def pathOrUnknown (s : DiffStat) : Str := jsOrVal s.new (jsOrVal s.old "unknown".data)

/-- `stat.new?.path || stat.old?.path` interpolated into a template (an
undefined result prints as `undefined`). -/
def pathOrUndefined (s : DiffStat) : Str :=
  match s.new with
  | some q => if q.isEmpty then (match s.old with
      | some r => r
      | none => "undefined".data) else q
  | none =>
    match s.old with
    | some r => r
    | none => "undefined".data

/-- One entry of the explicit file listing: a dash bullet with the path, the
status in parentheses, and the added/removed counts. -/
def statLine10 (s : DiffStat) : Str :=
  "- ".data ++ pathOrUnknown s ++ " (".data ++ s.status ++ ") +".data ++
  natToStr s.lines_added ++ "/-".data ++ natToStr s.lines_removed

/-- One entry of the `Most changed files` listing: a dash bullet with the
path and the added/removed counts in parentheses. -/
def statLineTop (s : DiffStat) : Str :=
  "- ".data ++ pathOrUndefined s ++ " (+".data ++ natToStr s.lines_added ++
  "/-".data ++ natToStr s.lines_removed ++ ")".data

/-- `diffStat.sort((a, b) => (b.lines_added + b.lines_removed) -
(a.lines_added + a.lines_removed))`: a stable sort by total changed lines,
descending (JavaScript's sort is stable, as is `mergeSort`). -/
def sortByTotalDesc (stats : List DiffStat) : List DiffStat :=
  stats.mergeSort fun a b =>
    decide ((b.lines_added + b.lines_removed) ≤ (a.lines_added + a.lines_removed))

/-- The structured `Diff Too Large` fallback message, built exactly as the
template literal: the first 10 files listed in full, a remainder count when
more than 10 changed, fixed suggestions, and the top 5 files of the sorted
listing. -/
def tooLargeMessage (stats : List DiffStat) (estTokensRounded maxSize prId : Nat) : Str :=
  "\n⚠️  **Diff Too Large (".data ++ natToStr estTokensRounded ++
  " tokens > ".data ++ natToStr maxSize ++ " limit)**\n\n**Files changed (".data ++
  natToStr stats.length ++ "):**\n".data ++
  joinNl ((stats.take 10).map statLine10) ++
  (if stats.length > 10 then
    "\n... and ".data ++ natToStr (stats.length - 10) ++ " more files".data
   else []) ++
  "\n\n**💡 Suggested approaches:**\n1. **Get specific file diff:** Use `file_path` parameter\n2. **Use git locally:**\n   ```bash\n   git fetch origin pull/".data ++
  natToStr prId ++
  "/head\n   git diff HEAD...FETCH_HEAD --stat\n   git diff HEAD...FETCH_HEAD -- path/to/specific/file.js\n   ```\n3. **Reduce context:** Use `context_lines: 2` parameter\n4. **Review in Bitbucket web interface**\n\n**Most changed files:**\n".data ++
  joinNl (((sortByTotalDesc stats).take 5).map statLineTop)

structure EnhancedOptions where
  file_path : Option Str := none
  context_lines : Option Nat := none
  ignore_whitespace : Bool := false
  max_size : Option Nat := none
  deriving Repr

/-- `MAX_TOKEN_SIZE = options.max_size || 20000` (zero is falsy). -/
def maxTokenSize (o : EnhancedOptions) : Nat :=
  match o.max_size with
  | some n => if n = 0 then 20000 else n
  | none => 20000

structure EnhancedDiffResult where
  diff : Str
  truncated : Bool
  files_list : Option (List Str)
  deriving Repr, DecidableEq

/-- `getPullRequestDiffEnhanced` on its success path.  The size test
`estimatedTokens <= MAX_TOKEN_SIZE` with `estimatedTokens = length / 4`
(exact in floating point) is the integer comparison `length ≤ 4 * max`, and
`Math.round(estimatedTokens)` is `(length + 2) / 4`. -/
def getPullRequestDiffEnhanced (fullDiff : Str) (diffStat : List DiffStat)
    (fileDiff : Str) (prId : Nat) (options : EnhancedOptions) : EnhancedDiffResult :=
  match options.file_path with
  | some fp =>
    { diff := applyDiffFilters fileDiff ⟨options.context_lines, options.ignore_whitespace⟩,
      truncated := false, files_list := some [fp] }
  | none =>
    if fullDiff.length ≤ 4 * maxTokenSize options then
      { diff := applyDiffFilters fullDiff ⟨options.context_lines, options.ignore_whitespace⟩,
        truncated := false, files_list := none }
    else
      { diff := tooLargeMessage diffStat ((fullDiff.length + 2) / 4) (maxTokenSize options) prId,
        truncated := true,
        files_list := some (diffStat.map pathOrUnknown) }

/-- C2: with no `file_path`, the result is the structured `too large` summary
with `truncated = true` exactly when the diff's character count divided by 4
exceeds `max_size` (default 20000); the summary lists at most 10 files
explicitly plus a remainder count, and highlights the top 5 files of the
stable sort by `lines_added + lines_removed` descending; otherwise the
(optionally filtered) raw diff text is returned with `truncated = false`. -/
theorem getPullRequestDiffEnhanced_size_spec (fullDiff : Str) (diffStat : List DiffStat)
    (fileDiff : Str) (prId : Nat) (options : EnhancedOptions)
    (hnofile : options.file_path = none) :
    ((getPullRequestDiffEnhanced fullDiff diffStat fileDiff prId options).truncated = true ↔
      4 * maxTokenSize options < fullDiff.length) ∧
    (fullDiff.length ≤ 4 * maxTokenSize options →
      getPullRequestDiffEnhanced fullDiff diffStat fileDiff prId options =
        { diff := applyDiffFilters fullDiff ⟨options.context_lines, options.ignore_whitespace⟩,
          truncated := false, files_list := none }) ∧
    (4 * maxTokenSize options < fullDiff.length →
      getPullRequestDiffEnhanced fullDiff diffStat fileDiff prId options =
        { diff := tooLargeMessage diffStat ((fullDiff.length + 2) / 4)
            (maxTokenSize options) prId,
          truncated := true, files_list := some (diffStat.map pathOrUnknown) } ∧
      (diffStat.take 10).length ≤ 10 ∧
      ((sortByTotalDesc diffStat).take 5).length ≤ 5 ∧
      ((sortByTotalDesc diffStat).take 5).Pairwise
        (fun a b => b.lines_added + b.lines_removed ≤ a.lines_added + a.lines_removed)) := by
  have hunfold : getPullRequestDiffEnhanced fullDiff diffStat fileDiff prId options =
      (if fullDiff.length ≤ 4 * maxTokenSize options then
        { diff := applyDiffFilters fullDiff ⟨options.context_lines, options.ignore_whitespace⟩,
          truncated := false, files_list := none }
      else
        { diff := tooLargeMessage diffStat ((fullDiff.length + 2) / 4)
            (maxTokenSize options) prId,
          truncated := true,
          files_list := some (diffStat.map pathOrUnknown) }) := by
    unfold getPullRequestDiffEnhanced
    rw [hnofile]
  have hsorted : ((sortByTotalDesc diffStat).take 5).Pairwise
      (fun a b => b.lines_added + b.lines_removed ≤ a.lines_added + a.lines_removed) := by
    have hms := @List.sorted_mergeSort DiffStat
      (fun a b =>
        decide ((b.lines_added + b.lines_removed) ≤ (a.lines_added + a.lines_removed)))
      (fun a b c hab hbc => by
        simp only [decide_eq_true_eq] at hab hbc ⊢
        omega)
      (fun a b => by
        simp only [Bool.or_eq_true, decide_eq_true_eq]
        omega)
      diffStat
    have hs : (sortByTotalDesc diffStat).Pairwise
        (fun a b => b.lines_added + b.lines_removed ≤ a.lines_added + a.lines_removed) := by
      refine hms.imp ?_
      intro a b h
      simpa using h
    exact hs.sublist (List.take_sublist 5 _)
  by_cases hle : fullDiff.length ≤ 4 * maxTokenSize options
  · refine ⟨?_, fun _ => by rw [hunfold, if_pos hle], fun hgt => absurd hgt (by omega)⟩
    rw [hunfold, if_pos hle]
    constructor
    · intro h; exact absurd h (by simp)
    · intro h; omega
  · refine ⟨?_, fun hle2 => absurd hle2 hle, ?_⟩
    · rw [hunfold, if_neg hle]
      constructor
      · intro _; omega
      · intro _; rfl
    · intro _
      refine ⟨by rw [hunfold, if_neg hle], ?_, ?_, hsorted⟩
      · rw [List.length_take]; omega
      · rw [List.length_take]; omega

/-- Closed instantiation of `getPullRequestDiffEnhanced_size_spec`: a 5-char
diff against `max_size = 1` is summarized with `truncated = true`, and the
same diff against the default limit is returned raw with
`truncated = false`. -/
theorem getPullRequestDiffEnhanced_size_spec_witness :
    (getPullRequestDiffEnhanced "12345".data
        [⟨some "a".data, some "a".data, "modified".data, 1, 2⟩] [] 7
        ⟨none, none, false, some 1⟩).truncated = true ∧
    (getPullRequestDiffEnhanced "12345".data
        [⟨some "a".data, some "a".data, "modified".data, 1, 2⟩] [] 7
        ⟨none, none, false, none⟩).truncated = false := by
  constructor
  · exact ((getPullRequestDiffEnhanced_size_spec "12345".data
      [⟨some "a".data, some "a".data, "modified".data, 1, 2⟩] [] 7
      ⟨none, none, false, some 1⟩ rfl).1).mpr (by decide)
  · have h := (getPullRequestDiffEnhanced_size_spec "12345".data
      [⟨some "a".data, some "a".data, "modified".data, 1, 2⟩] [] 7
      ⟨none, none, false, none⟩ rfl).2.1 (by decide)
    rw [h]

/-! ## Diff fetcher state machine (`src/client/bitbucket.ts`,
`getPullRequestDiff`, lines 874–1041; error enrichment from
`src/utils/errors.ts`, `handleBitbucketError`)

The HTTP endpoints are modelled as an environment of pre-determined results:
`directDiff` for the direct PR-diff endpoint, `prMeta` for the PR metadata
endpoint, `commitsList` for the PR commit list (each commit carrying the
result of its own single-commit diff endpoint), `branchDiff` for the
three-dot branch compare and `rangeDiff` for the two-dot commit-range
compare.  The two `cache.delete` calls at the top only mutate the cache,
which no later step of this function reads, and are not modelled. -/

structure HttpError where
  /-- `error.response?.status`; `none` models an error without a response. -/
  status : Option Nat
  deriving Repr, DecidableEq

inductive FetchResult (α : Type) where
  | ok (value : α)
  | err (e : HttpError)
  deriving Repr

structure PRInfo where
  title : Option Str
  state : Str
  authorDisplay : Str
  authorUsername : Str
  sourceBranch : Str
  destBranch : Str
  sourceCommit : Option Str
  destCommit : Option Str
  deriving Repr

structure CommitInfo where
  hash : Str
  message : Option Str
  /-- The result of `GET /2.0/repositories/.../diff/hash` for this commit. -/
  diff : FetchResult Str
  deriving Repr

structure DiffEnv where
  directDiff : FetchResult Str
  prMeta : FetchResult PRInfo
  commitsList : FetchResult (List CommitInfo)
  branchDiff : FetchResult Str
  rangeDiff : FetchResult Str
  deriving Repr

/-- An error as the caller of `getPullRequestDiff` observes it. -/
inductive BBError where
  /-- thrown by `handleBitbucketError` via `createDetailedError` for an axios
  error with the given status. -/
  | enrichedHttp (status : Option Nat)
  /-- thrown by `handleBitbucketError` via `createGenericError` for a plain
  `Error` with the given message. -/
  | enrichedGeneric (message : Str)
  /-- an error thrown inside the 404-handling branch itself, escaping without
  enrichment. -/
  | unhandled (status : Option Nat)
  deriving Repr, DecidableEq

/-- Model of `String.prototype.toLowerCase` on the ASCII range the heuristics
compare against. -/
def toLowerStr (s : Str) : Str :=
  s.map fun c => if 'A' ≤ c ∧ c ≤ 'Z' then Char.ofNat (c.toNat + 32) else c

/-- The content-sanity test of the direct fetch: the PR looks like an
emergency-contact PR (title or source branch name). -/
def isEmergencyContactPR (pr : PRInfo) : Bool :=
  let prTitle := toLowerStr (pr.title.getD [])
  strContains prTitle "emergency".data || strContains prTitle "contact".data ||
  strContains pr.sourceBranch "emergency".data || strContains pr.sourceBranch "contact".data

/-- The content-sanity test of the direct fetch: the (lower-cased) diff body
contains unrelated learning-domain keywords. -/
def diffHasLearningFiles (diffLower : Str) : Bool :=
  strContains diffLower "learning-api".data || strContains diffLower "cpd".data ||
  strContains diffLower "learningapi".data

/-- The commit-fallback loop (`Method 1`): try the diffs of up to `fuel = 3`
commits; for an emergency-contact PR accept only a commit whose diff or
message matches the PR domain and whose diff has no learning-domain content;
otherwise accept the first nonempty commit diff. -/
def tryCommitDiffs (prTitleLower : Str) : Nat → List CommitInfo → Option Str
  | _, [] => none
  | 0, _ => none
  | fuel + 1, c :: rest =>
    match c.diff with
    | .ok data =>
      if data.length > 0 then
        let commitDiffContent := toLowerStr data
        let commitMsg := toLowerStr (c.message.getD [])
        let isEC := strContains prTitleLower "emergency".data ||
          strContains prTitleLower "contact".data
        if isEC then
          let hasRel := strContains commitDiffContent "emergency".data ||
            strContains commitDiffContent "contact".data ||
            strContains commitMsg "emergency".data ||
            strContains commitMsg "contact".data
          let hasIrr := diffHasLearningFiles commitDiffContent
          if hasRel && ! hasIrr then some data
          else tryCommitDiffs prTitleLower fuel rest
        else some data
      else tryCommitDiffs prTitleLower fuel rest
    | .err _ => tryCommitDiffs prTitleLower fuel rest

/-- Interpolation of a possibly-undefined string into a template literal. -/
def interpolate : Option Str → Str
  | some s => s
  | none => "undefined".data

/-- The `Access Denied` report returned (not thrown) when every fallback
fails, built exactly as the template literal. -/
def accessDeniedMessage (workspace repo_slug : Str) (pr_id : Nat) (pr : PRInfo) : Str :=
  "# Access Denied - PR #".data ++ natToStr pr_id ++ " Diff\n\n**⚠️ Cannot retrieve diff for this pull request**\n\n**PR Details:**\n- **Title:** ".data ++
  interpolate pr.title ++ "\n- **Author:** ".data ++ pr.authorDisplay ++ " (@".data ++
  pr.authorUsername ++ ")\n- **Branch:** ".data ++ pr.sourceBranch ++ " → ".data ++
  pr.destBranch ++ "\n- **State:** ".data ++ pr.state ++
  "\n\n**Reason:** Limited access to PR diff content.\n\n**💡 Solutions for Code Review Access:**\n\n### **For Repository Maintainers:**\n1. **Add as reviewer:** Ask ".data ++
  pr.authorDisplay ++
  " to add you as a reviewer\n2. **Repository access:** Request collaborator access to the repository\n3. **Team permissions:** Ensure your team has appropriate repository permissions\n\n### **Alternative Access Methods:**\n1. **Local git access:**\n   ```bash\n   git fetch origin ".data ++
  pr.sourceBranch ++ "\n   git diff ".data ++ pr.destBranch ++ "...".data ++
  pr.sourceBranch ++
  "\n   ```\n\n2. **Bitbucket web interface:** Use the PR page directly at:\n   `https://bitbucket.org/".data ++
  workspace ++ "/".data ++ repo_slug ++ "/pull-requests/".data ++ natToStr pr_id ++
  "`\n\n3. **Ask for diff export:** Request the PR author to export/share the diff\n\n**🔧 Technical Details:**\n- PR diff endpoint: 404 (access denied)  \n- Branch comparison: Failed\n- Commit range access: Failed\n- This suggests limited repository permissions for your API token\n\n**Note:** The MCP tried multiple fallback methods but all were blocked by permissions.".data

/-- `Method 3`: the two-dot commit-range compare, tried only when both head
hashes are known; an empty body falls through to the access-denied report. -/
def commitRangeFallback (env : DiffEnv) (workspace repo_slug : Str) (pr_id : Nat)
    (pr : PRInfo) : Except BBError Str :=
  match pr.sourceCommit, pr.destCommit with
  | some _, some _ =>
    match env.rangeDiff with
    | .ok data =>
      if data.length > 0 then .ok data
      else .ok (accessDeniedMessage workspace repo_slug pr_id pr)
    | .err _ => .ok (accessDeniedMessage workspace repo_slug pr_id pr)
  | _, _ => .ok (accessDeniedMessage workspace repo_slug pr_id pr)

/-- `Method 2`: the three-dot branch compare; an empty or failed result moves
on to the commit-range compare. -/
def branchCompareFallback (env : DiffEnv) (workspace repo_slug : Str) (pr_id : Nat)
    (pr : PRInfo) : Except BBError Str :=
  match env.branchDiff with
  | .ok data =>
    if data.length > 0 then .ok data
    else commitRangeFallback env workspace repo_slug pr_id pr
  | .err _ => commitRangeFallback env workspace repo_slug pr_id pr

/-- The whole 404-handling branch: re-fetch the PR metadata (an error here
escapes unenriched), then commit fallback, branch compare, commit range, and
finally the access-denied report. -/
def fallbackChain (env : DiffEnv) (workspace repo_slug : Str) (pr_id : Nat) :
    Except BBError Str :=
  match env.prMeta with
  | .err e2 => .error (.unhandled e2.status)
  | .ok pr =>
    let prTitleLower := toLowerStr (pr.title.getD [])
    let commitResult := match env.commitsList with
      | .ok commits => tryCommitDiffs prTitleLower 3 commits
      | .err _ => none
    match commitResult with
    | some data => .ok data
    | none => branchCompareFallback env workspace repo_slug pr_id pr

/-- The error value the outer catch processes: an axios error or the plain
`Error` thrown by the content-sanity check. -/
inductive CaughtErr where
  | http (e : HttpError)
  | contentMismatch
  deriving Repr, DecidableEq

/-- The outer catch of `getPullRequestDiff`: only a 404 response status
enters the fallback chain; everything else goes to `handleBitbucketError`,
which always throws. -/
def catchPath (env : DiffEnv) (workspace repo_slug : Str) (pr_id : Nat)
    (err : CaughtErr) : Except BBError Str :=
  let status := match err with
    | .http e => e.status
    | .contentMismatch => none
  if status = some 404 then fallbackChain env workspace repo_slug pr_id
  else
    .error (match err with
      | .http e => .enrichedHttp e.status
      | .contentMismatch =>
        .enrichedGeneric "Content mismatch: PR diff does not match PR topic".data)

/-- `getPullRequestDiff`: direct fetch, PR metadata fetch, content-sanity
check (throwing a plain `Error` on mismatch), and the catch dispatching on
the caught error's response status. -/
def getPullRequestDiff (env : DiffEnv) (workspace repo_slug : Str) (pr_id : Nat) :
    Except BBError Str :=
  match env.directDiff with
  | .err e => catchPath env workspace repo_slug pr_id (.http e)
  | .ok data =>
    match env.prMeta with
    | .err e => catchPath env workspace repo_slug pr_id (.http e)
    | .ok pr =>
      let diffContent := toLowerStr data
      if isEmergencyContactPR pr && diffHasLearningFiles diffContent then
        catchPath env workspace repo_slug pr_id .contentMismatch
      else .ok data

/-- The scenario of claim C1: the direct endpoint succeeds but returns
learning-domain content for an emergency-contact PR, while the PR's first
commit would yield a matching diff. -/
def scenarioBEnv : DiffEnv where
  directDiff := .ok "diff --git a/learning-api/x b/learning-api/x\n+cpd change".data
  prMeta := .ok
    { title := some "Add emergency contact form".data
      state := "OPEN".data
      authorDisplay := "Ann".data
      authorUsername := "ann".data
      sourceBranch := "feature/emergency-contact".data
      destBranch := "main".data
      sourceCommit := some "abc123".data
      destCommit := some "def456".data }
  commitsList := .ok
    [{ hash := "abc123".data
       message := some "emergency contact".data
       diff := .ok "diff --git a/emergency b/emergency\n+contact form".data }]
  branchDiff := .ok "x".data
  rangeDiff := .ok "x".data

/-- C1: in scenario B the content-sanity check fires, but the `Error` it
throws has no `response.status`, so the catch's 404 test fails and
`handleBitbucketError` raises the enriched error to the caller; the commit
fallback — which would have produced the matching commit diff, as the second
conjunct shows — is never reached. -/
theorem getPullRequestDiff_content_mismatch_raises :
    getPullRequestDiff scenarioBEnv "ws".data "repo".data 7 =
      .error (.enrichedGeneric
        "Content mismatch: PR diff does not match PR topic".data) ∧
    tryCommitDiffs (toLowerStr ("Add emergency contact form".data)) 3
        [{ hash := "abc123".data
           message := some "emergency contact".data
           diff := .ok "diff --git a/emergency b/emergency\n+contact form".data }] =
      some "diff --git a/emergency b/emergency\n+contact form".data := by
  constructor
  · rfl
  · rfl
